import Mathlib

/-!
# Progress bars of the DataManager client (`commands/ProgressbarNew.go`)

A shallow embedding of the byte-counting write proxy `Bar`, of `NewBar`, of the
render hook that `NewBar` installs, and of `ProgressView.AddBar`, followed by the
properties of the transfer-progress specification that are stated about them.

Modelling conventions.

* A Go `string` is its sequence of bytes (`len` and slicing count bytes).
* Go's `int` and `int64` are modelled by `Int`: the counters hold the byte totals
  of one transfer.
* The libraries the code talks to are modelled at their interface: an
  `io.Writer` is a deterministic object that answers a call from the history of
  the calls it has received, and an `mpb.Bar` records the `IncrBy` calls made
  on it.  A `*mpb.Bar` is an index into the bars of the progress container.
* A Go panic (nil dereference) is the result `none`.
-/

namespace DataManager

/-! ## Strings -/

/-- One byte of a Go string. -/
abbrev Byte := Fin 256

/-- Go `string`: a sequence of bytes. -/
abbrev GoString := List Byte

/-- Bytes of an ASCII string literal of the source. -/
def lit (s : String) : GoString := s.toList.map (fun c => Fin.ofNat c.toNat)

/-- Go slice expression `s[lo:hi]`. -/
def goSlice (s : GoString) (lo hi : Nat) : GoString := (s.take hi).drop lo

/-! ## `BarTask` -/

/-- Go `type BarTask uint8`. -/
structure BarTask where
  val : Fin 256
deriving DecidableEq

/-- Constant `UploadTask BarTask = iota`. -/
def UploadTask : BarTask := ⟨0⟩

/-- Constant `DownloadTask`. -/
def DownloadTask : BarTask := ⟨1⟩

/-- Method `func (bt BarTask) String() string`. -/
def BarTask.String (bt : BarTask) : GoString :=
  if bt = UploadTask then lit "Upload"
  else if bt = DownloadTask then lit "Download"
  else lit ""

/-- Method `func (bt BarTask) Verb() string`. -/
def BarTask.Verb (bt : BarTask) : GoString :=
  bt.String ++ lit "ing"

/-! ## External collaborators -/

/-- An `io.Writer`: `respond calls b` is the pair `(n, err)` it returns when it is
called with `b` after having received `calls`; `calls` is the history so far. -/
structure Writer where
  respond : List (List Byte) → List Byte → Int × Option GoString
  calls : List (List Byte)

/-- One call `ow.Write(b)`: the writer records `b` and answers. -/
def Writer.Write (w : Writer) (b : List Byte) : Writer × (Int × Option GoString) :=
  ({ w with calls := w.calls ++ [b] }, w.respond w.calls b)

/-- The contract of `io.Writer`: `0 <= n <= len(b)`. -/
def Writer.WellFormed (w : Writer) : Prop :=
  ∀ calls b, 0 ≤ (w.respond calls b).1 ∧ (w.respond calls b).1 ≤ (b.length : Int)

/-- An `mpb.Bar`: its total and the arguments of the `IncrBy` calls it has
received, oldest first. -/
structure MpbBar where
  total : Int
  incrs : List Int
deriving DecidableEq

/-- Bytes the widget has been told about: the sum of its increments. -/
def MpbBar.count (w : MpbBar) : Int := w.incrs.sum

/-- Call `IncrBy(n)` on the bar that pointer `p` designates. -/
def IncrBy : List MpbBar → Nat → Int → List MpbBar
  | [], _, _ => []
  | w :: ws, 0, n => { w with incrs := w.incrs ++ [n] } :: ws
  | w :: ws, p + 1, n => w :: IncrBy ws p n

/-! ## `Bar` -/

/-- Go `type barData struct`. -/
structure barData where
  offset : Int
deriving DecidableEq

/-- The decorators `NewBar` uses. -/
inductive Decorator where
  | OnCompleteSpinner (message : GoString)
  | Name (text : GoString)
  | Percentage
  | CountersKiloByte (fmt : GoString)
deriving DecidableEq

/-- The `[]mpb.BarOption` built by `NewBar`. -/
structure BarOptions where
  fillerMiddleware : Bool
  fillerClearOnComplete : Bool
  prependDecorators : List Decorator
  appendDecorators : List Decorator
deriving DecidableEq

/-- Go `type Bar struct`.  `bar` is the `*mpb.Bar` (`none` is nil), `ow` the
underlying writer (`none` is the nil interface), `barData` the shared
`*barData`, `doneTextChan` the content of the buffered channel. -/
structure Bar where
  task : BarTask
  total : Int
  options : BarOptions
  style : GoString
  bar : Option Nat
  ow : Option Writer
  barData : barData
  doneTextChan : List GoString
  doneText : GoString
  done : Bool

/-- The value of the local `name` of `NewBar` after the block `// Trim name`. -/
def NewBar.name (name : GoString) : GoString :=
  if name.length > 40 then
    goSlice name 0 20 ++ lit "..." ++ goSlice name (name.length - 20) name.length
  else name

/-- Function `NewBar(task, total, name)`. -/
def NewBar (task : BarTask) (total : Int) (name : GoString) : Bar :=
  { task := task
    total := total
    style := lit "(=>_)"
    barData := ⟨0⟩
    doneTextChan := []
    bar := none
    ow := none
    doneText := []
    done := false
    options :=
      { fillerMiddleware := true
        fillerClearOnComplete := true
        prependDecorators :=
          [ Decorator.OnCompleteSpinner (lit "done"),
            Decorator.Name task.Verb,
            Decorator.Name (lit " '" ++ NewBar.name name ++ lit "'"),
            Decorator.Percentage ]
        appendDecorators := [Decorator.CountersKiloByte (lit "[%d / %d]")] } }

/-! ## `ProgressView` and the whole state -/

/-- Go `type ProgressView struct`: the bars the `mpb.Progress` container has
created, in creation order (a `*mpb.Bar` is a position in this list), and the
slice `Bars` of pointers. -/
structure ProgressView where
  ProgressContainer : List MpbBar
  Bars : List Nat
deriving DecidableEq

/-- Function `NewProgressView()`. -/
def NewProgressView : ProgressView :=
  { ProgressContainer := [], Bars := [] }

/-- A progress view together with one `Bar`, as reached through the pointer
`*Bar` that `NewBar` returned. -/
structure Sys where
  pv : ProgressView
  bbar : Bar

/-- Method `func (bar Bar) Write(b []byte) (int, error)`, called through the
`*Bar`.  The receiver is a copy, but the writer, the widget and `barData` are
reached through references, so their updates persist.  The result is `none` when
`bar.ow` is nil (the call panics). -/
def Bar.Write (s : Sys) (b : List Byte) : Option (Sys × (Int × Option GoString)) :=
  match s.bbar.ow with
  | none => none
  | some ow =>
    let r := ow.Write b
    let n := r.2.1
    match s.bbar.bar with
    | some p =>
      if s.bbar.barData.offset > 0 then
        some ({ pv := { s.pv with
                        ProgressContainer :=
                          IncrBy (IncrBy s.pv.ProgressContainer p s.bbar.barData.offset) p n }
                bbar := { s.bbar with ow := some r.1, barData := ⟨0⟩ } }, r.2)
      else
        some ({ pv := { s.pv with ProgressContainer := IncrBy s.pv.ProgressContainer p n }
                bbar := { s.bbar with ow := some r.1 } }, r.2)
    | none =>
      some ({ s with bbar := { s.bbar with ow := some r.1
                                           barData := ⟨s.bbar.barData.offset + n⟩ } }, r.2)

/-- Method `func (pv *ProgressView) AddBar(bbar *Bar) *mpb.Bar`: the container
creates a bar with the total of `bbar`, the pointer is stored in `bbar.bar` and
appended to `pv.Bars`, and returned. -/
def ProgressView.AddBar (s : Sys) : Sys × Nat :=
  let bar := s.pv.ProgressContainer.length
  ({ pv := { ProgressContainer := s.pv.ProgressContainer ++ [{ total := s.bbar.total, incrs := [] }]
             Bars := s.pv.Bars ++ [bar] }
     bbar := { s.bbar with bar := some bar } }, bar)

/-- What one call of the bar filler did: the text passed to `io.WriteString`
(if any), whether `base.Fill` was called, and the bar whose `Completed()` was
printed (if any). -/
structure FillOut where
  written : Option GoString
  base : Bool
  printedCompleted : Option Nat
deriving DecidableEq

/-- The `mpb.BarFillerFunc` closure installed by `NewBar` (one render tick).
`bar.bar.Completed()` dereferences `bar.bar`: with a nil or dangling pointer
the call panics. -/
def NewBar.filler (s : Sys) : Option (Sys × FillOut) :=
  if s.bbar.done then
    some (s, { written := some s.bbar.doneText, base := false, printedCompleted := none })
  else
    match s.bbar.doneTextChan with
    | text :: rest =>
      match s.bbar.bar with
      | none => none
      | some p =>
        if p < s.pv.ProgressContainer.length then
          some ({ s with bbar := { s.bbar with doneTextChan := rest, doneText := text, done := true } },
                { written := some text, base := false, printedCompleted := some p })
        else none
    | [] => some (s, { written := none, base := true, printedCompleted := none })

/-- A send `bar.doneTextChan <- text` by the transfer driver.  The channel has
capacity 1: on a full channel the sender blocks and the state is unchanged
(result `false`). -/
def chanSend (s : Sys) (text : GoString) : Sys × Bool :=
  if s.bbar.doneTextChan.length < 1 then
    ({ s with bbar := { s.bbar with doneTextChan := s.bbar.doneTextChan ++ [text] } }, true)
  else (s, false)

/-! ## Traces -/

/-- The operations on a bar. -/
inductive Event where
  | Write (b : List Byte)
  | AddBar
  | Fill
  | Send (text : GoString)

/-- What an operation returned. -/
inductive Out where
  | wrote (n : Int) (err : Option GoString)
  | added (p : Nat)
  | filled (o : FillOut)
  | sent (ok : Bool)

/-- One operation. -/
def step (s : Sys) : Event → Option (Sys × Out)
  | Event.Write b => (Bar.Write s b).map (fun r => (r.1, Out.wrote r.2.1 r.2.2))
  | Event.AddBar => some ((ProgressView.AddBar s).1, Out.added (ProgressView.AddBar s).2)
  | Event.Fill => (NewBar.filler s).map (fun r => (r.1, Out.filled r.2))
  | Event.Send text => some ((chanSend s text).1, Out.sent (chanSend s text).2)

/-- A sequence of operations, with what each returned. -/
def run (s : Sys) : List Event → Option (Sys × List Out)
  | [] => some (s, [])
  | e :: es =>
    match step s e with
    | none => none
    | some (s1, o) =>
      match run s1 es with
      | none => none
      | some (s2, os) => some (s2, o :: os)

/-- The event is a `Write` or an `AddBar`. -/
def Event.isTransfer : Event → Bool
  | Event.Write _ => true
  | Event.AddBar => true
  | _ => false

/-- The byte count a `Write` returned (0 for the other operations). -/
def Out.n : Out → Int
  | Out.wrote n _ => n
  | _ => 0

/-- The byte counts returned by the `Write` calls of a trace, in order. -/
def returned : List Out → List Int
  | [] => []
  | Out.wrote n _ :: os => n :: returned os
  | _ :: os => returned os

/-- Sum of the byte counts returned by the `Write` calls of a trace. -/
def writeSum (os : List Out) : Int := (returned os).sum

/-- The texts and `base.Fill` calls of the render ticks of a trace. -/
def fills : List Out → List FillOut
  | [] => []
  | Out.filled o :: os => o :: fills os
  | _ :: os => fills os

/-- The state right after `NewBar`, once the driver has stored the underlying
writer `ow` in the bar, with a fresh progress view. -/
def start (task : BarTask) (total : Int) (name : GoString) (ow : Writer) : Sys :=
  { pv := NewProgressView, bbar := { NewBar task total name with ow := some ow } }

/-- Increments received by the widget attached to the bar (none when no widget
is attached). -/
def received (s : Sys) : List Int :=
  match s.bbar.bar with
  | none => []
  | some p =>
    match s.pv.ProgressContainer[p]? with
    | none => []
    | some w => w.incrs

/-- Byte count of the attached widget: the sum of the increments it received. -/
def widgetCount (s : Sys) : Int := (received s).sum

/-- Running totals of a list of increments. -/
def cumulative : List Int → List Int
  | [] => []
  | x :: xs => x :: (cumulative xs).map (fun y => x + y)

/-- A writer that accepts everything: it returns `(len(b), nil)`. -/
def acceptAll : Writer :=
  { respond := fun _ b => ((b.length : Int), none), calls := [] }

/-- A buffer of `k` zero bytes. -/
def zeros (k : Nat) : List Byte := List.replicate k 0

/-- What a tick does on a bar that is done with text `t`: it writes `t`. -/
def doneFill (t : GoString) : FillOut :=
  { written := some t, base := false, printedCompleted := none }

/-- A bar with a widget attached and the text "ok" waiting in the completion
channel, before any tick. -/
def readyToFinish : Sys :=
  (chanSend (ProgressView.AddBar (start UploadTask 1000 (lit "file") acceptAll)).1 (lit "ok")).1

/-- The bar `readyToFinish` after the tick that takes the text. -/
def finished : Sys :=
  { readyToFinish with
    bbar := { readyToFinish.bbar with doneTextChan := [], doneText := lit "ok", done := true } }

/-- A name of 41 bytes (41 times the letter a). -/
def name41 : GoString := List.replicate 41 97

/-- Bytes delivered to all the bars of the container. -/
def heapSum (s : Sys) : Int := (s.pv.ProgressContainer.map MpbBar.count).sum

/-- The event is an `AddBar`. -/
def Event.isAddBar : Event → Bool
  | Event.AddBar => true
  | _ => false

/-- The states the theorems start from and stay in: the underlying writer is
set and honours the `io.Writer` contract, the buffered offset is not negative,
and `bar.bar` is nil with no bar created yet, or else points to the bar created
last. -/
structure Good (s : Sys) : Prop where
  ow : ∃ w, s.bbar.ow = some w ∧ w.WellFormed
  offset_nonneg : 0 ≤ s.bbar.barData.offset
  ptr : (s.bbar.bar = none ∧ s.pv.ProgressContainer = []) ∨
    (∃ p, s.bbar.bar = some p ∧ p + 1 = s.pv.ProgressContainer.length)

/-! # Properties -/

/-! ## The container -/

lemma IncrBy_length (c : List MpbBar) (p : Nat) (n : Int) :
    (IncrBy c p n).length = c.length := by
  induction c generalizing p with
  | nil => simp [IncrBy]
  | cons w ws ih =>
    cases p with
    | zero => simp [IncrBy]
    | succ p => simp [IncrBy, ih]

lemma IncrBy_getElem?_self (bars : List MpbBar) (p : Nat) (n : Int) :
    (IncrBy bars p n)[p]? = Option.map (fun w => { w with incrs := w.incrs ++ [n] }) bars[p]? := by
  induction bars generalizing p with
  | nil => simp [IncrBy]
  | cons w ws ih =>
    cases p with
    | zero => simp [IncrBy]
    | succ p => simpa [IncrBy] using ih p

lemma IncrBy_sum (c : List MpbBar) (p : Nat) (n : Int) (hp : p < c.length) :
    ((IncrBy c p n).map MpbBar.count).sum = (c.map MpbBar.count).sum + n := by
  induction c generalizing p with
  | nil => simp at hp
  | cons w ws ih =>
    cases p with
    | zero => simp [IncrBy, MpbBar.count]; ring
    | succ p =>
      have hp1 : p < ws.length := by simpa using hp
      simp [IncrBy, ih p hp1]; ring

/-! ## One `Write` -/

lemma Write_eq (s : Sys) (w : Writer) (b : List Byte) (how : s.bbar.ow = some w) :
    ∃ s1, Bar.Write s b = some (s1, w.respond w.calls b) ∧
      s1.bbar.ow = some { w with calls := w.calls ++ [b] } ∧
      s1.bbar.bar = s.bbar.bar ∧ s1.bbar.done = s.bbar.done ∧
      s1.bbar.doneText = s.bbar.doneText ∧ s1.bbar.doneTextChan = s.bbar.doneTextChan ∧
      s1.pv.ProgressContainer.length = s.pv.ProgressContainer.length ∧
      (s.bbar.bar = none →
        s1.pv = s.pv ∧
        s1.bbar.barData.offset = s.bbar.barData.offset + (w.respond w.calls b).1) ∧
      (∀ p, s.bbar.bar = some p →
        s1.bbar.barData.offset = (if 0 < s.bbar.barData.offset then 0 else s.bbar.barData.offset) ∧
        s1.pv.ProgressContainer =
          IncrBy (if 0 < s.bbar.barData.offset
                  then IncrBy s.pv.ProgressContainer p s.bbar.barData.offset
                  else s.pv.ProgressContainer) p (w.respond w.calls b).1) := by
  unfold Bar.Write
  rw [how]
  cases hb : s.bbar.bar with
  | none => simp [Writer.Write, hb]
  | some p =>
    by_cases ho : 0 < s.bbar.barData.offset
    · simp [Writer.Write, ho, hb, IncrBy_length]
    · simp [Writer.Write, ho, hb, IncrBy_length]

lemma received_Write (s : Sys) (w : Writer) (b : List Byte) (p : Nat)
    (how : s.bbar.ow = some w) (hb : s.bbar.bar = some p)
    (hp : p < s.pv.ProgressContainer.length) :
    ∃ s1, Bar.Write s b = some (s1, w.respond w.calls b) ∧
      received s1 = received s ++
        (if 0 < s.bbar.barData.offset then [s.bbar.barData.offset] else []) ++
        [(w.respond w.calls b).1] ∧
      s1.bbar.barData.offset = (if 0 < s.bbar.barData.offset then 0 else s.bbar.barData.offset) ∧
      s1.bbar.bar = some p ∧ p < s1.pv.ProgressContainer.length ∧
      s1.bbar.ow = some { w with calls := w.calls ++ [b] } ∧
      s1.bbar.done = s.bbar.done ∧ s1.bbar.doneText = s.bbar.doneText := by
  obtain ⟨s1, h1, h2, h3, h4, h5, _, h7, _, h9⟩ := Write_eq s w b how
  obtain ⟨h10, h11⟩ := h9 p hb
  refine ⟨s1, h1, ?_, h10, by rw [h3, hb], by rw [h7]; exact hp, h2, h4, h5⟩
  obtain ⟨x, hx⟩ : ∃ x, s.pv.ProgressContainer[p]? = some x :=
    ⟨_, List.getElem?_eq_getElem hp⟩
  unfold received
  rw [h3, hb, h11]
  by_cases ho : 0 < s.bbar.barData.offset
  · simp [ho, IncrBy_getElem?_self, hx]
  · simp [ho, IncrBy_getElem?_self, hx]

/-! ## Traces -/

lemma run_append (es fs : List Event) : ∀ s : Sys,
    run s (es ++ fs) =
      match run s es with
      | none => none
      | some (s1, o1) =>
        match run s1 fs with
        | none => none
        | some (s2, o2) => some (s2, o1 ++ o2) := by
  induction es with
  | nil =>
    intro s
    simp only [List.nil_append, run]
    cases run s fs with
    | none => rfl
    | some r => rfl
  | cons e es ih =>
    intro s
    rw [List.cons_append, run, run]
    cases step s e with
    | none => rfl
    | some r =>
      obtain ⟨s1, o⟩ := r
      simp only []
      rw [ih s1]
      cases run s1 es with
      | none => rfl
      | some r1 =>
        obtain ⟨s2, o1⟩ := r1
        simp only []
        cases run s2 fs with
        | none => rfl
        | some r2 => obtain ⟨s3, o2⟩ := r2; rfl

lemma writeSum_cons (o : Out) (os : List Out) : writeSum (o :: os) = o.n + writeSum os := by
  cases o <;> simp [writeSum, returned, Out.n]

lemma returned_append (os ps : List Out) : returned (os ++ ps) = returned os ++ returned ps := by
  induction os with
  | nil => rfl
  | cons o os ih => cases o <;> simp [returned, ih]

lemma writeSum_append (os ps : List Out) : writeSum (os ++ ps) = writeSum os + writeSum ps := by
  simp [writeSum, returned_append]

/-- A `Write` in a good state. -/
lemma step_Write (s : Sys) (hs : Good s) (b : List Byte) :
    ∃ s1 n err, step s (Event.Write b) = some (s1, Out.wrote n err) ∧ Good s1 ∧ 0 ≤ n ∧
      heapSum s1 + s1.bbar.barData.offset = heapSum s + s.bbar.barData.offset + n ∧
      s1.pv.ProgressContainer.length = s.pv.ProgressContainer.length ∧
      s1.bbar.bar = s.bbar.bar ∧
      (s.bbar.bar = none → s1.bbar.barData.offset = s.bbar.barData.offset + n) ∧
      (s.bbar.bar ≠ none → s1.bbar.barData.offset = 0) := by
  obtain ⟨⟨w, how, hwf⟩, hoff, hptr⟩ := hs
  obtain ⟨s1, h1, h2, h3, _, _, _, h7, h8, h9⟩ := Write_eq s w b how
  have hn := (hwf w.calls b).1
  refine ⟨s1, (w.respond w.calls b).1, (w.respond w.calls b).2, ?_, ?_, hn, ?_, h7, h3, ?_, ?_⟩
  · simp [step, h1]
  · refine ⟨⟨_, h2, hwf⟩, ?_, ?_⟩
    · rcases hptr with ⟨hb, _⟩ | ⟨p, hb, _⟩
      · rw [(h8 hb).2]; omega
      · rw [(h9 p hb).1]; split <;> omega
    · rcases hptr with ⟨hb, hc⟩ | ⟨p, hb, hc⟩
      · left; exact ⟨by rw [h3, hb], by rw [(h8 hb).1, hc]⟩
      · right; exact ⟨p, by rw [h3, hb], by rw [h7, hc]⟩
  · rcases hptr with ⟨hb, _⟩ | ⟨p, hb, hc⟩
    · unfold heapSum
      rw [(h8 hb).2, (h8 hb).1]; ring
    · have hp : p < s.pv.ProgressContainer.length := by omega
      unfold heapSum
      rw [(h9 p hb).1, (h9 p hb).2]
      by_cases ho : 0 < s.bbar.barData.offset
      · simp only [ho, if_true]
        rw [IncrBy_sum _ _ _ (by rw [IncrBy_length]; exact hp), IncrBy_sum _ _ _ hp]; ring
      · simp only [ho, if_false]
        rw [IncrBy_sum _ _ _ hp]; ring
  · intro hb; exact (h8 hb).2
  · intro hb
    cases hb1 : s.bbar.bar with
    | none => exact absurd hb1 hb
    | some p =>
      rw [(h9 p hb1).1]; split <;> omega

/-- An `AddBar` in a good state. -/
lemma step_AddBar (s : Sys) (hs : Good s) :
    ∃ s1, step s Event.AddBar = some (s1, Out.added s.pv.ProgressContainer.length) ∧ Good s1 ∧
      heapSum s1 = heapSum s ∧ s1.bbar.barData.offset = s.bbar.barData.offset ∧
      s1.pv.ProgressContainer.length = s.pv.ProgressContainer.length + 1 ∧
      s1.bbar.bar = some s.pv.ProgressContainer.length := by
  obtain ⟨how, hoff, _⟩ := hs
  refine ⟨(ProgressView.AddBar s).1, rfl, ⟨how, hoff, ?_⟩, ?_, rfl, ?_, rfl⟩
  · right; exact ⟨s.pv.ProgressContainer.length, rfl, by simp [ProgressView.AddBar]⟩
  · simp [heapSum, ProgressView.AddBar, MpbBar.count]
  · simp [ProgressView.AddBar]

/-- Any interleaving of `Write` and `AddBar` from a good state: it runs to the
end, stays good, and conserves the byte counts. -/
lemma run_transfer (es : List Event) (hes : ∀ e ∈ es, e.isTransfer = true) :
    ∀ s : Sys, Good s →
      ∃ s1 outs, run s es = some (s1, outs) ∧ Good s1 ∧
        heapSum s1 + s1.bbar.barData.offset = heapSum s + s.bbar.barData.offset + writeSum outs ∧
        s1.pv.ProgressContainer.length = s.pv.ProgressContainer.length + es.countP Event.isAddBar ∧
        (s1.bbar.bar = none →
          s.bbar.bar = none ∧ s1.bbar.barData.offset = s.bbar.barData.offset + writeSum outs) ∧
        (s.bbar.bar ≠ none → s1.bbar.bar ≠ none) ∧
        (s.bbar.bar ≠ none → s.bbar.barData.offset = 0 → s1.bbar.barData.offset = 0) := by
  induction es with
  | nil =>
    intro s hs
    exact ⟨s, [], rfl, hs, by simp [writeSum, returned], by simp,
      fun h => ⟨h, by simp [writeSum, returned]⟩,
      fun h => h, fun _ h => h⟩
  | cons e es ih =>
    intro s hs
    have hes1 : ∀ x ∈ es, x.isTransfer = true := fun x hx => hes x (List.mem_cons_of_mem _ hx)
    have he := hes e (List.mem_cons_self _ _)
    cases e with
    | Write b =>
      obtain ⟨s1, n, err, h1, hg, _, hsum, hlen, hbar, hnone, hsome⟩ := step_Write s hs b
      obtain ⟨s2, outs, r1, rg, rsum, rlen, rnone, rsome, rzero⟩ := ih hes1 s1 hg
      refine ⟨s2, Out.wrote n err :: outs, by simp [run, h1, r1], rg, ?_, ?_, ?_, ?_, ?_⟩
      · rw [rsum, hsum, writeSum_cons]; simp [Out.n]; ring
      · rw [rlen, hlen]; simp [Event.isAddBar]
      · intro h
        obtain ⟨h3, h4⟩ := rnone h
        have h5 : s.bbar.bar = none := by rw [← hbar]; exact h3
        refine ⟨h5, ?_⟩
        rw [h4, hnone h5, writeSum_cons]; simp [Out.n]; ring
      · intro h; exact rsome (by rw [hbar]; exact h)
      · intro h _; exact rzero (by rw [hbar]; exact h) (hsome h)
    | AddBar =>
      obtain ⟨s1, h1, hg, hsum, hoff, hlen, hbar⟩ := step_AddBar s hs
      obtain ⟨s2, outs, r1, rg, rsum, rlen, rnone, rsome, rzero⟩ := ih hes1 s1 hg
      have hb1 : s1.bbar.bar ≠ none := by rw [hbar]; simp
      refine ⟨s2, Out.added s.pv.ProgressContainer.length :: outs, by simp [run, h1, r1], rg,
        ?_, ?_, ?_, ?_, ?_⟩
      · rw [rsum, hsum, hoff, writeSum_cons]; simp [Out.n]
      · rw [rlen, hlen]; simp [Event.isAddBar]; ring
      · intro h; exact absurd h (rsome hb1)
      · intro _; exact rsome hb1
      · intro _ h0; exact rzero hb1 (by rw [hoff]; exact h0)
    | Fill => simp [Event.isTransfer] at he
    | Send t => simp [Event.isTransfer] at he

/-! ## Start states and the single widget -/

lemma acceptAll_wellFormed : acceptAll.WellFormed := by
  intro calls b
  simp [acceptAll]

lemma start_good (task : BarTask) (total : Int) (name : GoString) (ow : Writer)
    (hw : ow.WellFormed) : Good (start task total name ow) :=
  ⟨⟨ow, rfl, hw⟩, by simp [start, NewBar], Or.inl ⟨rfl, rfl⟩⟩

/-- With at most one bar in the container, what the container received is what
the attached widget received. -/
lemma heapSum_eq_widgetCount (s : Sys) (hs : Good s)
    (hlen : s.pv.ProgressContainer.length ≤ 1) : heapSum s = widgetCount s := by
  unfold heapSum widgetCount received
  rcases hs.ptr with ⟨hb, hc⟩ | ⟨p, hb, hc⟩
  · simp [hb, hc]
  · have hp : p = 0 := by omega
    subst hp
    rw [hb]
    match h : s.pv.ProgressContainer with
    | [] => rw [h] at hc; simp at hc
    | [w] => simp [MpbBar.count]
    | _ :: _ :: _ => rw [h] at hlen; simp at hlen

lemma received_AddBar (s : Sys) : received (ProgressView.AddBar s).1 = [] := by
  simp [received, ProgressView.AddBar]

/-- A `Write` after any interleaving of `Write` and `AddBar`. -/
lemma run_snoc_Write (s : Sys) (hs : Good s) (es : List Event)
    (hes : ∀ e ∈ es, e.isTransfer = true) (b : List Byte) :
    ∃ s0 outs0 s1 n err, run s es = some (s0, outs0) ∧ Good s0 ∧
      run s (es ++ [Event.Write b]) = some (s1, outs0 ++ [Out.wrote n err]) ∧
      s1.bbar.bar = s0.bbar.bar ∧ (s0.bbar.bar ≠ none → s1.bbar.barData.offset = 0) := by
  obtain ⟨s0, outs0, h0, hg, _⟩ := run_transfer es hes s hs
  obtain ⟨s1, n, err, h1, _, _, _, _, hbar, _, hzero⟩ := step_Write s0 hg b
  refine ⟨s0, outs0, s1, n, err, h0, hg, ?_, hbar, hzero⟩
  rw [run_append, h0]
  simp [run, h1]

/-- Writes made with a widget attached leave the offset at zero. -/
lemma run_attached_writes (s : Sys) (hs : Good s) (hb : s.bbar.bar ≠ none) (b : List Byte)
    (es : List Event) (hes : ∀ e ∈ es, e.isTransfer = true) :
    ∃ s1 outs, run s (Event.Write b :: es) = some (s1, outs) ∧
      s1.bbar.barData.offset = 0 ∧ s1.bbar.bar ≠ none := by
  obtain ⟨s1, n, err, h1, hg, _, _, _, hbar, _, hzero⟩ := step_Write s hs b
  have hb1 : s1.bbar.bar ≠ none := by rw [hbar]; exact hb
  obtain ⟨s2, outs, r1, _, _, _, _, rsome, rzero⟩ := run_transfer es hes s1 hg
  exact ⟨s2, Out.wrote n err :: outs, by simp [run, h1, r1], rzero hb1 (hzero hb), rsome hb1⟩

/-! ## Conservation of the byte counts -/

/-- C10.  Conservation invariant of the byte counter: after `NewBar` and any
interleaving of `Write` calls (whose writer returns `0 <= n <= len(b)`, with or
without an error) and at most one `AddBar`, the run reaches a state in which the
bytes delivered to the widget plus the buffered offset equal the sum of the `n`
returned so far; while no widget is attached nothing has been delivered and the
offset is that whole sum; and right after a `Write` made with a widget attached
the offset is 0. -/
theorem byteCounter_conservation (task : BarTask) (total : Int) (name : GoString) (ow : Writer)
    (hw : ow.WellFormed) (es : List Event) (hes : ∀ e ∈ es, e.isTransfer = true)
    (hone : es.countP Event.isAddBar ≤ 1) :
    ∃ s outs, run (start task total name ow) es = some (s, outs) ∧
      widgetCount s + s.bbar.barData.offset = writeSum outs ∧
      (s.bbar.bar = none → widgetCount s = 0 ∧ s.bbar.barData.offset = writeSum outs) ∧
      (∀ es0 b, es = es0 ++ [Event.Write b] → s.bbar.bar ≠ none → s.bbar.barData.offset = 0) := by
  have hg0 := start_good task total name ow hw
  obtain ⟨s, outs, h1, hg, hsum, hlen, hnone, _, _⟩ :=
    run_transfer es hes (start task total name ow) hg0
  have hlen1 : s.pv.ProgressContainer.length ≤ 1 := by
    rw [hlen]; simpa [start, NewProgressView] using hone
  have hcount := heapSum_eq_widgetCount s hg hlen1
  have hsum1 : widgetCount s + s.bbar.barData.offset = writeSum outs := by
    rw [← hcount, hsum]; simp [heapSum, start, NewProgressView, NewBar]
  refine ⟨s, outs, h1, hsum1, ?_, ?_⟩
  · intro hb
    have hoff := (hnone hb).2
    have hoff1 : s.bbar.barData.offset = writeSum outs := by
      rw [hoff]; simp [start, NewBar]
    exact ⟨by omega, hoff1⟩
  · intro es0 b hsplit hb
    have hes0 : ∀ e ∈ es0, e.isTransfer = true := fun e he =>
      hes e (by rw [hsplit]; exact List.mem_append_left _ he)
    obtain ⟨s0, outs0, s1, n, err, _, _, hr, hbar, hzero⟩ :=
      run_snoc_Write (start task total name ow) hg0 es0 hes0 b
    rw [hsplit, hr] at h1
    have hs : s1 = s := congrArg Prod.fst (Option.some.inj h1)
    subst hs
    exact hzero (by rw [← hbar]; exact hb)

/-- C10, at a concrete trace: 100 bytes written before the widget is attached
and 200 bytes after, through a writer that accepts everything. -/
theorem byteCounter_conservation_witness :
    acceptAll.WellFormed ∧
    (∀ e ∈ [Event.Write (zeros 100), Event.AddBar, Event.Write (zeros 200)],
      e.isTransfer = true) ∧
    [Event.Write (zeros 100), Event.AddBar, Event.Write (zeros 200)].countP Event.isAddBar ≤ 1 ∧
    ∃ s outs, run (start UploadTask 1000 (lit "file") acceptAll)
        [Event.Write (zeros 100), Event.AddBar, Event.Write (zeros 200)] = some (s, outs) ∧
      widgetCount s + s.bbar.barData.offset = writeSum outs ∧
      (s.bbar.bar = none → widgetCount s = 0 ∧ s.bbar.barData.offset = writeSum outs) ∧
      (∀ es0 b, [Event.Write (zeros 100), Event.AddBar, Event.Write (zeros 200)]
          = es0 ++ [Event.Write b] → s.bbar.bar ≠ none → s.bbar.barData.offset = 0) :=
  ⟨acceptAll_wellFormed, by decide, by decide,
    byteCounter_conservation UploadTask 1000 (lit "file") acceptAll acceptAll_wellFormed
      [Event.Write (zeros 100), Event.AddBar, Event.Write (zeros 200)] (by decide) (by decide)⟩

/-- C1.  For writes made before the widget is attached by `AddBar` and at least
one write made after it (the writer returning `0 <= n <= len(b)`), the run
reaches a state in which the sum of all increments passed to the widget equals
the sum of the byte counts returned by all those `Write` calls, and nothing is
left buffered. -/
theorem increments_sum_eq_returned_sum (task : BarTask) (total : Int) (name : GoString)
    (ow : Writer) (hw : ow.WellFormed) (bs : List (List Byte)) (c : List Byte)
    (cs : List (List Byte)) :
    ∃ s outs,
      run (start task total name ow)
        (bs.map Event.Write ++ Event.AddBar :: (c :: cs).map Event.Write) = some (s, outs) ∧
      (received s).sum = writeSum outs ∧ s.bbar.barData.offset = 0 := by
  have hg0 := start_good task total name ow hw
  have hpre : ∀ e ∈ bs.map Event.Write ++ [Event.AddBar], e.isTransfer = true := by
    intro e he
    rcases List.mem_append.1 he with h | h
    · obtain ⟨b, _, rfl⟩ := List.mem_map.1 h; rfl
    · rw [List.mem_singleton.1 h]; rfl
  have hpost : ∀ e ∈ cs.map Event.Write, e.isTransfer = true := by
    intro e he
    obtain ⟨b, _, rfl⟩ := List.mem_map.1 he; rfl
  have hcount : ∀ l : List (List Byte), (l.map Event.Write).countP Event.isAddBar = 0 := by
    intro l
    induction l with
    | nil => rfl
    | cons b l ih => simp [Event.isAddBar]
  -- the prefix up to the attachment
  obtain ⟨s1, outs1, h1, hg1, hsum1, hlen1, _, _, _⟩ :=
    run_transfer _ hpre (start task total name ow) hg0
  have hlen1a : s1.pv.ProgressContainer.length = 1 := by
    rw [hlen1, List.countP_append, hcount bs]; simp [start, NewProgressView, Event.isAddBar]
  have hb1 : s1.bbar.bar ≠ none := by
    rcases hg1.ptr with ⟨_, hc⟩ | ⟨p, hb, _⟩
    · rw [hc] at hlen1a; simp at hlen1a
    · rw [hb]; simp
  -- the writes after the attachment
  have hpost1 : ∀ e ∈ Event.Write c :: cs.map Event.Write, e.isTransfer = true := by
    intro e he
    rcases List.mem_cons.1 he with h | h
    · rw [h]; rfl
    · exact hpost e h
  obtain ⟨s2, outs2, h2, hg2, hsum2, hlen2, _, _, _⟩ := run_transfer _ hpost1 s1 hg1
  obtain ⟨s3, outs3, h3, hzero, _⟩ := run_attached_writes s1 hg1 hb1 c _ hpost
  rw [h2] at h3
  have hs : s2 = s3 := congrArg Prod.fst (Option.some.inj h3)
  subst hs
  have hlen2a : s2.pv.ProgressContainer.length ≤ 1 := by
    rw [hlen2, hlen1a]
    have : (Event.Write c :: cs.map Event.Write).countP Event.isAddBar = 0 := hcount (c :: cs)
    omega
  refine ⟨s2, outs1 ++ outs2, ?_, ?_, hzero⟩
  · have : bs.map Event.Write ++ Event.AddBar :: (c :: cs).map Event.Write
        = (bs.map Event.Write ++ [Event.AddBar]) ++ (Event.Write c :: cs.map Event.Write) := by
      simp
    rw [this, run_append, h1]
    simp [h2]
  · have hw2 := heapSum_eq_widgetCount s2 hg2 hlen2a
    unfold widgetCount at hw2
    rw [← hw2, writeSum_append]
    have h0 : heapSum (start task total name ow) = 0 := by simp [heapSum, start, NewProgressView]
    have h00 : (start task total name ow).bbar.barData.offset = 0 := by simp [start, NewBar]
    rw [h0, h00] at hsum1
    rw [hzero] at hsum2
    omega

/-- C1, at a concrete trace: writes of 100 bytes before the attachment and of
200 and 700 bytes after it. -/
theorem increments_sum_eq_returned_sum_witness :
    acceptAll.WellFormed ∧
    ∃ s outs,
      run (start UploadTask 1000 (lit "file") acceptAll)
        ([zeros 100].map Event.Write ++
          Event.AddBar :: (zeros 200 :: [zeros 700]).map Event.Write) = some (s, outs) ∧
      (received s).sum = writeSum outs ∧ s.bbar.barData.offset = 0 :=
  ⟨acceptAll_wellFormed,
    increments_sum_eq_returned_sum UploadTask 1000 (lit "file") acceptAll acceptAll_wellFormed
      [zeros 100] (zeros 200) [zeros 700]⟩

/-! ## Buffering before the attachment, flushing after it -/

/-- Writes on a bar without widget add up in the offset. -/
lemma run_writes_unattached (bs : List (List Byte)) : ∀ (s : Sys) (w : Writer),
    s.bbar.ow = some w → s.bbar.bar = none →
    ∃ s1 outs w1, run s (bs.map Event.Write) = some (s1, outs) ∧
      s1.bbar.ow = some w1 ∧ s1.bbar.bar = none ∧ s1.pv = s.pv ∧
      s1.bbar.barData.offset = s.bbar.barData.offset + writeSum outs ∧
      (returned outs).length = bs.length := by
  induction bs with
  | nil =>
    intro s w how hb
    exact ⟨s, [], w, rfl, how, hb, rfl, by simp [writeSum, returned], rfl⟩
  | cons b bs ih =>
    intro s w how hb
    obtain ⟨s1, h1, h2, h3, _, _, _, _, h8, _⟩ := Write_eq s w b how
    obtain ⟨s2, outs, w2, r1, r2, r3, r4, r5, r6⟩ := ih s1 _ h2 (by rw [h3, hb])
    refine ⟨s2, Out.wrote (w.respond w.calls b).1 (w.respond w.calls b).2 :: outs, w2, ?_, r2, r3,
      by rw [r4, (h8 hb).1], ?_, by simp [returned, r6]⟩
    · simp [run, step, h1, r1]
    · rw [r5, (h8 hb).2, writeSum_cons]; simp [Out.n]; ring

/-- Writes on a bar with a widget and nothing buffered go to the widget one by
one. -/
lemma run_writes_attached (cs : List (List Byte)) : ∀ (s : Sys) (w : Writer) (p : Nat),
    s.bbar.ow = some w → s.bbar.bar = some p → p < s.pv.ProgressContainer.length →
    ¬ 0 < s.bbar.barData.offset →
    ∃ s1 outs, run s (cs.map Event.Write) = some (s1, outs) ∧
      received s1 = received s ++ returned outs ∧
      s1.bbar.barData.offset = s.bbar.barData.offset ∧
      (returned outs).length = cs.length := by
  induction cs with
  | nil =>
    intro s w p _ _ _ _
    exact ⟨s, [], rfl, by simp [returned], rfl, rfl⟩
  | cons b cs ih =>
    intro s w p how hb hp ho
    obtain ⟨s1, h1, h2, h3, h4, h5, h6, _, _⟩ := received_Write s w b p how hb hp
    simp only [ho, if_false] at h2 h3
    obtain ⟨s2, outs, r1, r2, r3, r4⟩ := ih s1 _ p h6 h4 h5 (by rw [h3]; exact ho)
    refine ⟨s2, Out.wrote (w.respond w.calls b).1 (w.respond w.calls b).2 :: outs, ?_, ?_,
      by rw [r3, h3], by simp [returned, r4]⟩
    · simp [run, step, h1, r1]
    · rw [r2, h2]; simp [returned]

/-- C3, as stated, fails: after one `Write` of 100 bytes and `AddBar`, a widget is
attached, the buffered offset is still 100 and the widget has received
nothing. -/
theorem offset_nonzero_while_attached :
    ∃ s outs, run (start UploadTask 1000 (lit "file") acceptAll)
        [Event.Write (zeros 100), Event.AddBar] = some (s, outs) ∧
      s.bbar.bar = some 0 ∧ s.bbar.barData.offset = 100 ∧ s.bbar.barData.offset ≠ 0 ∧
      received s = [] :=
  ⟨_, _, rfl, rfl, by decide, by decide, by decide⟩

/-- C3, amended.  In every state reachable by `NewBar` followed by any
interleaving of `Write` (returning `0 <= n <= len(b)`) and `AddBar`: the offset
is not negative; `AddBar` leaves the offset as it is and the new widget has
received nothing; a `Write` made while a widget is attached passes a positive
buffered offset to the widget as one increment before its own `n` and leaves the
offset at zero, where it stays through any further `Write` and `AddBar`. -/
theorem offset_flushed_by_first_attached_Write (task : BarTask) (total : Int) (name : GoString)
    (ow : Writer) (hw : ow.WellFormed) (es : List Event)
    (hes : ∀ e ∈ es, e.isTransfer = true) :
    ∃ s outs, run (start task total name ow) es = some (s, outs) ∧
      0 ≤ s.bbar.barData.offset ∧
      (ProgressView.AddBar s).1.bbar.barData.offset = s.bbar.barData.offset ∧
      received (ProgressView.AddBar s).1 = [] ∧
      (∀ b, s.bbar.bar ≠ none →
        ∃ s1 r, Bar.Write s b = some (s1, r) ∧
          received s1 = received s ++
            (if 0 < s.bbar.barData.offset then [s.bbar.barData.offset] else []) ++ [r.1] ∧
          s1.bbar.barData.offset = 0 ∧
          ∀ fs : List Event, (∀ e ∈ fs, e.isTransfer = true) →
            ∃ s2 outs2, run s1 fs = some (s2, outs2) ∧ s2.bbar.barData.offset = 0) := by
  have hg0 := start_good task total name ow hw
  obtain ⟨s, outs, h1, hg, _⟩ := run_transfer es hes (start task total name ow) hg0
  refine ⟨s, outs, h1, hg.offset_nonneg, rfl, received_AddBar s, ?_⟩
  intro b hb
  obtain ⟨w, how, _⟩ := hg.ow
  rcases hg.ptr with ⟨hn, _⟩ | ⟨p, hp, hc⟩
  · exact absurd hn hb
  · obtain ⟨s1, r1, r2, r3, _⟩ :=
      received_Write s w b p how hp (by omega)
    obtain ⟨s1a, n, err, q1, qg, _, _, _, qbar, _, qzero⟩ := step_Write s hg b
    have hs : s1a = s1 := by
      simp only [step, r1, Option.map_some] at q1
      exact (congrArg Prod.fst (Option.some.inj q1)).symm
    subst hs
    refine ⟨s1a, _, r1, r2, qzero hb, ?_⟩
    intro fs hfs
    obtain ⟨s2, outs2, t1, _, _, _, _, _, tzero⟩ := run_transfer fs hfs s1a qg
    exact ⟨s2, outs2, t1, tzero (by rw [qbar]; exact hb) (qzero hb)⟩

/-- C3 amended, at a concrete trace: 100 bytes written, then the attachment. -/
theorem offset_flushed_by_first_attached_Write_witness :
    acceptAll.WellFormed ∧
    (∀ e ∈ [Event.Write (zeros 100), Event.AddBar], e.isTransfer = true) ∧
    ∃ s outs, run (start UploadTask 1000 (lit "file") acceptAll)
        [Event.Write (zeros 100), Event.AddBar] = some (s, outs) ∧
      0 ≤ s.bbar.barData.offset ∧
      (ProgressView.AddBar s).1.bbar.barData.offset = s.bbar.barData.offset ∧
      received (ProgressView.AddBar s).1 = [] ∧
      (∀ b, s.bbar.bar ≠ none →
        ∃ s1 r, Bar.Write s b = some (s1, r) ∧
          received s1 = received s ++
            (if 0 < s.bbar.barData.offset then [s.bbar.barData.offset] else []) ++ [r.1] ∧
          s1.bbar.barData.offset = 0 ∧
          ∀ fs : List Event, (∀ e ∈ fs, e.isTransfer = true) →
            ∃ s2 outs2, run s1 fs = some (s2, outs2) ∧ s2.bbar.barData.offset = 0) :=
  ⟨acceptAll_wellFormed, by decide,
    offset_flushed_by_first_attached_Write UploadTask 1000 (lit "file") acceptAll
      acceptAll_wellFormed [Event.Write (zeros 100), Event.AddBar] (by decide)⟩

/-- C2, as stated, fails when nothing is buffered: after a `Write` of an empty
buffer (returning 0), `AddBar` and a `Write` of 5 bytes, the writes returned 0
and 5, and the first and only increment the widget received is 5, not the
buffered sum 0. -/
theorem first_increment_not_buffered_sum :
    ∃ s outs, run (start UploadTask 1000 (lit "file") acceptAll)
        [Event.Write [], Event.AddBar, Event.Write (zeros 5)] = some (s, outs) ∧
      returned outs = [0, 5] ∧ received s = [5] ∧ (received s).head? ≠ some 0 :=
  ⟨_, _, rfl, by decide, by decide, by decide⟩

set_option maxRecDepth 16384 in
/-- C2, amended.  For writes returning `n1..nk` on an unattached bar, followed
by `AddBar` and at least one more `Write`: the offset before the attachment is
`n1+...+nk`, the new widget has received nothing at the attachment, and after the
later writes it has received first the buffered sum, once, when that sum is
positive (and no increment for it when it is not), and then exactly the `n` of
each later `Write`, in order; a positive offset is back at zero.  With total
1000, writes of 100, 200, 700 bytes and the attachment after the first, the
increments are 100, 200, 700 and the widget counts 100, 300, 1000. -/
theorem buffered_sum_flushed_once_then_direct (task : BarTask) (total : Int) (name : GoString)
    (ow : Writer) (bs : List (List Byte)) (c : List Byte) (cs : List (List Byte)) :
    (∃ s1 outs1 s2 outs2,
      run (start task total name ow) (bs.map Event.Write) = some (s1, outs1) ∧
      s1.bbar.bar = none ∧ s1.bbar.barData.offset = writeSum outs1 ∧
      received (ProgressView.AddBar s1).1 = [] ∧
      run (ProgressView.AddBar s1).1 ((c :: cs).map Event.Write) = some (s2, outs2) ∧
      (returned outs2).length = cs.length + 1 ∧
      received s2 = (if 0 < writeSum outs1 then [writeSum outs1] else []) ++ returned outs2 ∧
      s2.bbar.barData.offset = (if 0 < writeSum outs1 then 0 else writeSum outs1)) ∧
    (run (start UploadTask 1000 (lit "file") acceptAll)
        [Event.Write (zeros 100), Event.AddBar, Event.Write (zeros 200),
          Event.Write (zeros 700)]).map (fun r => (received r.1, cumulative (received r.1)))
      = some ([100, 200, 700], [100, 300, 1000]) := by
  refine ⟨?_, by decide⟩
  obtain ⟨s1, outs1, w1, h1, h2, h3, h4, h5, _⟩ :=
    run_writes_unattached bs (start task total name ow) ow rfl rfl
  have hoff : s1.bbar.barData.offset = writeSum outs1 := by
    rw [h5]; simp [start, NewBar]
  have hp : s1.pv.ProgressContainer.length
      < (ProgressView.AddBar s1).1.pv.ProgressContainer.length := by
    simp [ProgressView.AddBar]
  obtain ⟨s2, q1, q2, q3, q4, q5, q6, _, _⟩ :=
    received_Write (ProgressView.AddBar s1).1 w1 c s1.pv.ProgressContainer.length h2 rfl hp
  have hoffA : (ProgressView.AddBar s1).1.bbar.barData.offset = writeSum outs1 := hoff
  rw [hoffA] at q2 q3
  rw [received_AddBar] at q2
  have hno : ¬ 0 < s2.bbar.barData.offset := by
    rw [q3]; split <;> omega
  obtain ⟨s3, outs3, r1, r2, r3, r4⟩ := run_writes_attached cs s2 _ _ q6 q4 q5 hno
  refine ⟨s1, outs1, s3,
    Out.wrote (w1.respond w1.calls c).1 (w1.respond w1.calls c).2 :: outs3,
    h1, h3, hoff, received_AddBar s1, ?_, by simp [returned, r4], ?_, by rw [r3, q3]⟩
  · simp [run, step, q1, r1]
  · rw [r2, q2]; simp [returned]

/-! ## Forwarding to the underlying writer -/

/-- C4.  In every state of the bar whose underlying writer is `w` (widget
attached or not, any buffered offset, done or not), `Write(b)` returns, calls
`w` exactly once, with `b` itself, and returns exactly the pair `(n, err)` that
this call returned, whether `err` is nil or not. -/
theorem Write_forwards_to_underlying_writer (s : Sys) (w : Writer) (b : List Byte)
    (how : s.bbar.ow = some w) :
    ∃ s1, Bar.Write s b = some (s1, (w.Write b).2) ∧
      s1.bbar.ow = some (w.Write b).1 ∧
      (w.Write b).1.calls = w.calls ++ [b] ∧ (w.Write b).2 = w.respond w.calls b := by
  obtain ⟨s1, h1, h2, _⟩ := Write_eq s w b how
  exact ⟨s1, h1, h2, rfl, rfl⟩

/-- C4, at the state right after `NewBar` with a writer that accepts
everything and a buffer of three bytes. -/
theorem Write_forwards_to_underlying_writer_witness :
    (start UploadTask 1000 (lit "file") acceptAll).bbar.ow = some acceptAll ∧
    ∃ s1, Bar.Write (start UploadTask 1000 (lit "file") acceptAll) [1, 2, 3]
        = some (s1, (acceptAll.Write [1, 2, 3]).2) ∧
      s1.bbar.ow = some (acceptAll.Write [1, 2, 3]).1 ∧
      (acceptAll.Write [1, 2, 3]).1.calls = acceptAll.calls ++ [[1, 2, 3]] ∧
      (acceptAll.Write [1, 2, 3]).2 = acceptAll.respond acceptAll.calls [1, 2, 3] :=
  ⟨rfl, Write_forwards_to_underlying_writer (start UploadTask 1000 (lit "file") acceptAll)
    acceptAll [1, 2, 3] rfl⟩

/-! ## The render hook -/

/-- What a tick that takes a text from the channel does. -/
lemma filler_takes (s s1 : Sys) (o1 : FillOut) (t : GoString) (rest : List GoString)
    (hd : s.bbar.done = false) (hc : s.bbar.doneTextChan = t :: rest)
    (hf : NewBar.filler s = some (s1, o1)) :
    ∃ p, s.bbar.bar = some p ∧ p < s.pv.ProgressContainer.length ∧
      s1 = { s with bbar := { s.bbar with doneTextChan := rest, doneText := t, done := true } } ∧
      o1 = { written := some t, base := false, printedCompleted := some p } := by
  unfold NewBar.filler at hf
  rw [hd, hc] at hf
  cases hb : s.bbar.bar with
  | none => simp [hb] at hf
  | some p =>
    by_cases hp : p < s.pv.ProgressContainer.length
    · simp only [hb, hp, if_true, Bool.false_eq_true, if_false] at hf
      have h := Option.some.inj hf
      have h1 : s1 = _ := (congrArg Prod.fst h).symm
      refine ⟨p, rfl, hp, ?_, (congrArg Prod.snd h).symm⟩
      rw [h1]; simp [hb]
    · simp [hb, hp] at hf

/-- Every operation on a bar that is done succeeds, keeps it done with the same
text, and a tick writes that text without calling `base.Fill`. -/
lemma step_done (s : Sys) (t : GoString) (w : Writer) (hd : s.bbar.done = true)
    (ht : s.bbar.doneText = t) (how : s.bbar.ow = some w) (e : Event) :
    ∃ s1 o w1, step s e = some (s1, o) ∧ s1.bbar.done = true ∧ s1.bbar.doneText = t ∧
      s1.bbar.ow = some w1 ∧ fills [o] ⊆ [doneFill t] := by
  cases e with
  | Write b =>
    obtain ⟨s1, h1, h2, _, h4, h5, _⟩ := Write_eq s w b how
    exact ⟨s1, _, _, by simp [step, h1]; rfl, by rw [h4, hd], by rw [h5, ht], h2,
      by simp [fills]⟩
  | AddBar =>
    exact ⟨_, _, w, rfl, hd, ht, how, by simp [fills]⟩
  | Fill =>
    refine ⟨s, Out.filled (doneFill s.bbar.doneText), w, ?_, hd, ht, how, ?_⟩
    · simp [step, NewBar.filler, hd, doneFill]
    · simp [fills, ht]
  | Send text =>
    refine ⟨_, _, w, rfl, ?_, ?_, ?_, by simp [fills]⟩
    · unfold chanSend; split <;> simp [hd]
    · unfold chanSend; split <;> simp [ht]
    · unfold chanSend; split <;> simp [how]

lemma fills_cons_subset (o : Out) (os : List Out) (l : List FillOut)
    (h1 : fills [o] ⊆ l) (h2 : fills os ⊆ l) : fills (o :: os) ⊆ l := by
  cases o with
  | filled f =>
    intro x hx
    simp only [fills, List.mem_cons] at hx
    rcases hx with hx | hx
    · exact h1 (by simp [fills, hx])
    · exact h2 hx
  | wrote n err => simpa [fills] using h2
  | added p => simpa [fills] using h2
  | sent ok => simpa [fills] using h2

lemma run_done (es : List Event) : ∀ (s : Sys) (t : GoString) (w : Writer),
    s.bbar.done = true → s.bbar.doneText = t → s.bbar.ow = some w →
    ∃ s1 outs, run s es = some (s1, outs) ∧ s1.bbar.done = true ∧ s1.bbar.doneText = t ∧
      fills outs ⊆ [doneFill t] := by
  induction es with
  | nil =>
    intro s t w hd ht _
    exact ⟨s, [], rfl, hd, ht, by simp [fills]⟩
  | cons e es ih =>
    intro s t w hd ht how
    obtain ⟨s1, o, w1, h1, h2, h3, h4, h5⟩ := step_done s t w hd ht how e
    obtain ⟨s2, outs, r1, r2, r3, r4⟩ := ih s1 t w1 h2 h3 h4
    exact ⟨s2, o :: outs, by simp [run, h1, r1], r2, r3, fills_cons_subset o outs _ h5 r4⟩

/-- C5.  Once a tick of the render hook has taken a completion text `t` from the
completion channel, that tick writes exactly `t` and does not call the live
filler, and through every later sequence of operations (ticks, sends of any
texts on the completion channel, writes, attachments) the bar stays done, the
stored text stays `t`, and every tick writes exactly `t` and never calls the
live filler. -/
theorem completion_text_is_terminal (s s1 : Sys) (o1 : FillOut) (t : GoString)
    (rest : List GoString) (w : Writer) (hd : s.bbar.done = false)
    (hc : s.bbar.doneTextChan = t :: rest) (how : s.bbar.ow = some w)
    (hf : NewBar.filler s = some (s1, o1)) (es : List Event) :
    o1.written = some t ∧ o1.base = false ∧ s1.bbar.done = true ∧ s1.bbar.doneText = t ∧
    ∃ s2 outs, run s1 es = some (s2, outs) ∧ s2.bbar.done = true ∧ s2.bbar.doneText = t ∧
      ∀ o ∈ fills outs, o.written = some t ∧ o.base = false := by
  obtain ⟨p, _, _, hs1, ho1⟩ := filler_takes s s1 o1 t rest hd hc hf
  have hd1 : s1.bbar.done = true := by rw [hs1]
  have ht1 : s1.bbar.doneText = t := by rw [hs1]
  have how1 : s1.bbar.ow = some w := by rw [hs1]; exact how
  refine ⟨by rw [ho1], by rw [ho1], hd1, ht1, ?_⟩
  obtain ⟨s2, outs, r1, r2, r3, r4⟩ := run_done es s1 t w hd1 ht1 how1
  refine ⟨s2, outs, r1, r2, r3, ?_⟩
  intro o ho
  have := r4 ho
  simp only [List.mem_singleton] at this
  rw [this]
  exact ⟨rfl, rfl⟩

/-- C5, at a bar with a widget and the text "ok" in the channel: the tick takes
"ok"; afterwards a send of another text, a tick, a write and a tick follow. -/
theorem completion_text_is_terminal_witness :
    readyToFinish.bbar.done = false ∧ readyToFinish.bbar.doneTextChan = [lit "ok"] ∧
    readyToFinish.bbar.ow = some acceptAll ∧
    NewBar.filler readyToFinish = some (finished, ⟨some (lit "ok"), false, some 0⟩) ∧
    ((⟨some (lit "ok"), false, some 0⟩ : FillOut).written = some (lit "ok") ∧
      (⟨some (lit "ok"), false, some 0⟩ : FillOut).base = false ∧
      finished.bbar.done = true ∧ finished.bbar.doneText = lit "ok" ∧
      ∃ s2 outs,
        run finished [Event.Send (lit "late"), Event.Fill, Event.Write (zeros 5), Event.Fill]
          = some (s2, outs) ∧
        s2.bbar.done = true ∧ s2.bbar.doneText = lit "ok" ∧
        ∀ o ∈ fills outs, o.written = some (lit "ok") ∧ o.base = false) :=
  ⟨rfl, rfl, rfl, rfl,
    completion_text_is_terminal readyToFinish finished ⟨some (lit "ok"), false, some 0⟩ (lit "ok")
      [] acceptAll rfl rfl rfl rfl
      [Event.Send (lit "late"), Event.Fill, Event.Write (zeros 5), Event.Fill]⟩

/-- C6, as stated, fails: after `AddBar`, a send of "ok" and the tick that takes
it, the bar is done and the widget counts 0 bytes; a `Write` of 5 bytes then
returns 5 and the widget counts 5. -/
theorem Write_after_done_changes_widget_count :
    ∃ s outs s2 r,
      run (start UploadTask 1000 (lit "file") acceptAll)
        [Event.AddBar, Event.Send (lit "ok"), Event.Fill] = some (s, outs) ∧
      fills outs = [⟨some (lit "ok"), false, some 0⟩] ∧
      s.bbar.done = true ∧ widgetCount s = 0 ∧
      Bar.Write s (zeros 5) = some (s2, r) ∧ r.1 = 5 ∧
      received s2 = [5] ∧ widgetCount s2 = 5 ∧ widgetCount s2 ≠ widgetCount s :=
  ⟨_, _, _, _, rfl, by decide, rfl, by decide, rfl, by decide, by decide, by decide, by decide⟩

/-- C6, amended.  After the render hook has taken a completion text and marked
the bar done, `Write` does not consult the done flag: a subsequent `Write`
returns what the underlying writer returned, say `(n, err)`, leaves the bar done,
and passes `n` to the attached widget as an increment (after a positive buffered
offset, if there is one), so the widget's byte count grows by `n` plus that
offset. -/
theorem Write_after_done_still_increments (s s1 : Sys) (o1 : FillOut) (t : GoString)
    (rest : List GoString) (w : Writer) (b : List Byte) (hd : s.bbar.done = false)
    (hc : s.bbar.doneTextChan = t :: rest) (how : s.bbar.ow = some w)
    (hf : NewBar.filler s = some (s1, o1)) :
    s1.bbar.done = true ∧
    ∃ s2, Bar.Write s1 b = some (s2, w.respond w.calls b) ∧ s2.bbar.done = true ∧
      received s2 = received s1 ++
        (if 0 < s1.bbar.barData.offset then [s1.bbar.barData.offset] else []) ++
        [(w.respond w.calls b).1] ∧
      widgetCount s2 = widgetCount s1 +
        (if 0 < s1.bbar.barData.offset then s1.bbar.barData.offset else 0) +
        (w.respond w.calls b).1 := by
  obtain ⟨p, hp, hlt, hs1, _⟩ := filler_takes s s1 o1 t rest hd hc hf
  have hd1 : s1.bbar.done = true := by rw [hs1]
  have how1 : s1.bbar.ow = some w := by rw [hs1]; exact how
  have hp1 : s1.bbar.bar = some p := by rw [hs1]; exact hp
  have hlt1 : p < s1.pv.ProgressContainer.length := by rw [hs1]; exact hlt
  obtain ⟨s2, h1, h2, _, _, _, _, h7, _⟩ := received_Write s1 w b p how1 hp1 hlt1
  refine ⟨hd1, s2, h1, by rw [h7, hd1], h2, ?_⟩
  unfold widgetCount
  rw [h2]
  by_cases ho : 0 < s1.bbar.barData.offset
  · simp [ho]; ring
  · simp [ho]

/-- C6 amended, at the bar that has just taken the text "ok": a `Write` of 5
bytes. -/
theorem Write_after_done_still_increments_witness :
    readyToFinish.bbar.done = false ∧ readyToFinish.bbar.doneTextChan = [lit "ok"] ∧
    readyToFinish.bbar.ow = some acceptAll ∧
    NewBar.filler readyToFinish = some (finished, ⟨some (lit "ok"), false, some 0⟩) ∧
    (finished.bbar.done = true ∧
      ∃ s2, Bar.Write finished (zeros 5)
          = some (s2, acceptAll.respond acceptAll.calls (zeros 5)) ∧
        s2.bbar.done = true ∧
        received s2 = received finished ++
          (if 0 < finished.bbar.barData.offset then [finished.bbar.barData.offset] else []) ++
          [(acceptAll.respond acceptAll.calls (zeros 5)).1] ∧
        widgetCount s2 = widgetCount finished +
          (if 0 < finished.bbar.barData.offset then finished.bbar.barData.offset else 0) +
          (acceptAll.respond acceptAll.calls (zeros 5)).1) :=
  ⟨rfl, rfl, rfl, rfl,
    Write_after_done_still_increments readyToFinish finished ⟨some (lit "ok"), false, some 0⟩
      (lit "ok") [] acceptAll (zeros 5) rfl rfl rfl rfl⟩

/-! ## The display name and the verb -/

/-- C7.  The display name `NewBar` computes is the name itself when the name has
at most 40 bytes, and otherwise its first 20 bytes, then three dots, then its
last 20 bytes, which makes 43 bytes; so it has at most 43 bytes for every name.
It is the name that `NewBar` puts, between quotes, into the name decorator. -/
theorem NewBar_name_head_dots_tail (task : BarTask) (total : Int) (name : GoString) :
    NewBar.name name =
      (if name.length ≤ 40 then name
       else name.take 20 ++ [46, 46, 46] ++ name.drop (name.length - 20)) ∧
    (NewBar.name name).length = (if name.length ≤ 40 then name.length else 43) ∧
    (NewBar.name name).length ≤ 43 ∧
    Decorator.Name (lit " '" ++ NewBar.name name ++ lit "'")
      ∈ (NewBar task total name).options.prependDecorators := by
  have hdots : lit "..." = [46, 46, 46] := by decide
  have h1 : NewBar.name name =
      (if name.length ≤ 40 then name
       else name.take 20 ++ [46, 46, 46] ++ name.drop (name.length - 20)) := by
    unfold NewBar.name goSlice
    by_cases h : name.length ≤ 40
    · have h2 : ¬ name.length > 40 := by omega
      simp [h, h2]
    · have h2 : name.length > 40 := by omega
      rw [if_pos h2, if_neg h, hdots, List.take_length, List.drop_zero]
  have h2 : (NewBar.name name).length = (if name.length ≤ 40 then name.length else 43) := by
    rw [h1]
    by_cases h : name.length ≤ 40
    · simp [h]
    · simp only [h, if_false, List.length_append, List.length_take, List.length_drop,
        List.length_cons, List.length_nil]
      omega
  refine ⟨h1, h2, ?_, by simp [NewBar]⟩
  rw [h2]; split <;> omega

/-- C8, evaluated at a name of 41 bytes: the name is longer than 40 bytes, and
the display name `NewBar` computes has 43 bytes (20 bytes, three dots, 20
bytes), which is longer than the name, not shorter. -/
theorem NewBar_name_41_bytes_gives_43 :
    name41.length = 41 ∧ 40 < name41.length ∧
    NewBar.name name41 = List.replicate 20 97 ++ [46, 46, 46] ++ List.replicate 20 97 ∧
    (NewBar.name name41).length = 43 ∧ name41.length < (NewBar.name name41).length := by
  decide

/-- C9.  `Verb` of `UploadTask` is "Uploading" and `Verb` of `DownloadTask` is
"Downloading"; for every `BarTask` value, `Verb` is `String` followed by "ing";
and it is the label `NewBar` puts into the decorators of the rendered line. -/
theorem Verb_is_String_ing :
    UploadTask.Verb = lit "Uploading" ∧ DownloadTask.Verb = lit "Downloading" ∧
    UploadTask.String = lit "Upload" ∧ DownloadTask.String = lit "Download" ∧
    (∀ bt : BarTask, bt.Verb = bt.String ++ lit "ing") ∧
    ∀ (task : BarTask) (total : Int) (name : GoString),
      Decorator.Name task.Verb ∈ (NewBar task total name).options.prependDecorators := by
  refine ⟨by decide, by decide, by decide, by decide, fun _ => rfl, ?_⟩
  intro task total name
  simp [NewBar]

end DataManager
